import Mathlib

/-! The `atomList` store module (frontend/desktop/src/store/modules/atomList.js)

A shallow embedding of the Vuex module `atomList`: its state (two arrays of atom
records), its two mutations and the getter `singleAtomGrouped`.

JavaScript arrays are mutable objects that are passed by reference, so the arrays
live in an explicit heap and the state holds references into it.  This is what
makes the difference between `state.singleAtom = [...data]` (a fresh array) and
`state.singleAtom = data` (an alias) visible.
-/

namespace AtomList

/-! ## Data model -/

/-- Primitive JavaScript values that a record field can hold.  On these values the
strict equality `===` used by `indexOf` and by `m.code === item.code` is structural
equality (`NaN`, the one primitive that differs from itself, is not a JSON value). -/
inductive JsVal where
  | undefined : JsVal
  | null : JsVal
  | bool (b : Bool) : JsVal
  | num (n : Int) : JsVal
  | str (s : String) : JsVal
  deriving DecidableEq, Repr

/-- An atom record: the three fields the module reads, and the remaining fields,
which are passed through untouched. -/
structure Atom where
  code : JsVal
  group_name : JsVal
  group_icon : JsVal
  extra : List (String × JsVal)
  deriving DecidableEq, Repr

/-- A group object `{ type, group_name, group_icon, list }` built by the getter. -/
structure Group where
  type : JsVal
  group_name : JsVal
  group_icon : JsVal
  list : List Atom
  deriving DecidableEq, Repr

/-- A reference to an array object: its address in the heap. -/
abbrev Ref := Nat

/-- The array objects, by address. -/
abbrev Heap := List (List Atom)

/-- The module state `{ singleAtom, subAtom }`: two references to arrays. -/
structure State where
  singleAtom : Ref
  subAtom : Ref
  deriving DecidableEq, Repr

/-- The heap together with the state object. -/
structure Store where
  heap : Heap
  state : State
  deriving DecidableEq, Repr

/-- The module as created: `state: { singleAtom: [], subAtom: [] }`, two distinct
empty arrays. -/
def initialStore : Store :=
  { heap := [[], []], state := { singleAtom := 0, subAtom := 1 } }

/-- The contents of the array `state.singleAtom`. -/
def readSingleAtom (σ : Store) : Option (List Atom) :=
  σ.heap[σ.state.singleAtom]?

/-- The contents of the array `state.subAtom`. -/
def readSubAtom (σ : Store) : Option (List Atom) :=
  σ.heap[σ.state.subAtom]?

/-- What a reader of the state observes: the contents of both sequences. -/
def view (σ : Store) : Option (List Atom) × Option (List Atom) :=
  (readSingleAtom σ, readSubAtom σ)

/-- Both references held by the state point to arrays of the heap; a JavaScript
reference is never dangling. -/
def WellFormed (σ : Store) : Prop :=
  σ.state.singleAtom < σ.heap.length ∧ σ.state.subAtom < σ.heap.length

instance (σ : Store) : Decidable (WellFormed σ) := by
  unfold WellFormed
  infer_instance

/-! ## Mutations -/

/-- The spread expression `[...data]`: allocate a new array holding the elements of
`data`, and return its address.  Fails when `data` is not an array of the heap. -/
def spread (heap : Heap) (data : Ref) : Option (Heap × Ref) :=
  match heap[data]? with
  | none => none
  | some xs => some (heap ++ [xs], heap.length)

/-- Mutation `setSingleAtom (state, data) { state.singleAtom = [...data] }`. -/
def setSingleAtom (σ : Store) (data : Ref) : Option Store :=
  match spread σ.heap data with
  | none => none
  | some (heap, copy) => some { heap := heap, state := { σ.state with singleAtom := copy } }

/-- Mutation `setSubAtom (state, data) { state.subAtom = [...data] }`. -/
def setSubAtom (σ : Store) (data : Ref) : Option Store :=
  match spread σ.heap data with
  | none => none
  | some (heap, copy) => some { heap := heap, state := { σ.state with subAtom := copy } }

/-! ### Array updates a caller can perform on its own array -/

/-- The call `arr.push(x)` on the array at address `r`. -/
def arrayPush (σ : Store) (r : Ref) (x : Atom) : Store :=
  { σ with heap := σ.heap.modify (fun xs => xs ++ [x]) r }

/-- The call `arr.pop()` on the array at address `r`. -/
def arrayPop (σ : Store) (r : Ref) : Store :=
  { σ with heap := σ.heap.modify (fun xs => xs.dropLast) r }

/-- The call `arr.splice(i, 1)` on the array at address `r`: remove the element at
index `i`. -/
def arrayRemoveAt (σ : Store) (r : Ref) (i : Nat) : Store :=
  { σ with heap := σ.heap.modify (fun xs => xs.eraseIdx i) r }

/-- The assignment `arr[i] = x` for an index `i` inside the array at address `r`. -/
def arrayReplace (σ : Store) (r : Ref) (i : Nat) (x : Atom) : Store :=
  { σ with heap := σ.heap.modify (fun xs => xs.set i x) r }

/-! ## Actions -/

/-- The value a promise is rejected with. -/
structure JsError where
  name : String
  message : String
  deriving DecidableEq, Repr

/-- How a promise ends: fulfilled with a value, rejected with a reason, or never
settled. -/
inductive Promise (α : Type) where
  | resolved (value : α) : Promise α
  | rejected (reason : JsError) : Promise α
  | pending : Promise α
  deriving DecidableEq, Repr

/-- The call `p.then(onFulfilled)` with a callback that returns a plain value and does
not throw: a fulfilled promise is mapped through the callback, a rejection passes
through unchanged. -/
def Promise.thenDo {α β : Type} (p : Promise α) (onFulfilled : α → β) : Promise β :=
  match p with
  | .resolved value => .resolved (onFulfilled value)
  | .rejected reason => .rejected reason
  | .pending => .pending

/-- The argument `data` of an action: an object of query parameters. -/
abbrev Params := List (String × JsVal)

/-- The payload `response.data`: its field `objects` (`none` when the field is absent,
that is `undefined`) and its remaining fields. -/
structure Payload where
  objects : Option (List Atom)
  extra : List (String × JsVal)
  deriving DecidableEq, Repr

/-- The response object an API call is fulfilled with; it exposes `data`. -/
structure Response where
  data : Payload
  extra : List (String × JsVal)
  deriving DecidableEq, Repr

/-- One call of a function of the API client, with the arguments passed. -/
inductive ApiCall where
  | getSingleAtomList (args : List Params) : ApiCall
  | getSubAtomList (args : List Params) : ApiCall
  | queryAtom (args : List Params) : ApiCall
  deriving DecidableEq, Repr

/-- The API client imported from `api/index.js`, taken as a parameter: for each of its
three functions, the promise returned for a given list of arguments. -/
structure Api where
  getSingleAtomList : List Params → Promise Response
  getSubAtomList : List Params → Promise Response
  queryAtom : List Params → Promise Response

/-- A mutation of this module, as passed to `commit`. -/
inductive Mutation where
  | setSingleAtom (data : Ref) : Mutation
  | setSubAtom (data : Ref) : Mutation
  deriving DecidableEq, Repr

/-- The store's `commit` for this module: run the named mutation. -/
def commitMutation (m : Mutation) (σ : Store) : Option Store :=
  match m with
  | .setSingleAtom data => setSingleAtom σ data
  | .setSubAtom data => setSubAtom σ data

/-- The context object `{ commit }` an action receives. -/
structure ActionContext where
  commit : Mutation → Store → Option Store

/-- What running an action amounts to: the mutations it commits and the API calls it
makes, each in order, and the promise it returns. -/
structure ActionRun (α : Type) where
  commits : List Mutation
  calls : List ApiCall
  result : Promise α

/-- The store once an action has run: its commits applied, in order, through the
`commit` of the context. -/
def ActionRun.storeAfter {α : Type} (run : ActionRun α) (context : ActionContext)
    (σ : Store) : Option Store :=
  run.commits.foldlM (fun store m => context.commit m store) σ

/-- Action `loadSingleAtomList ({ commit })`:
`return api.getSingleAtomList().then(response => response.data.objects)`. -/
def loadSingleAtomList (_context : ActionContext) (api : Api) :
    ActionRun (Option (List Atom)) :=
  { commits := []
    calls := [ApiCall.getSingleAtomList []]
    result := (api.getSingleAtomList []).thenDo (fun response => response.data.objects) }

/-- Action `loadSubflowList ({ commit }, data)`:
`return api.getSubAtomList(data).then(response => response.data.objects)`. -/
def loadSubflowList (_context : ActionContext) (api : Api) (data : Params) :
    ActionRun (Option (List Atom)) :=
  { commits := []
    calls := [ApiCall.getSubAtomList [data]]
    result := (api.getSubAtomList [data]).thenDo (fun response => response.data.objects) }

/-- Action `queryAtomData ({ commit }, data)`:
`return api.queryAtom(data).then(response => response.data)`. -/
def queryAtomData (_context : ActionContext) (api : Api) (data : Params) :
    ActionRun Payload :=
  { commits := []
    calls := [ApiCall.queryAtom [data]]
    result := (api.queryAtom [data]).thenDo (fun response => response.data) }

/-! ## Getter `singleAtomGrouped` -/

/-- The call `groups.indexOf(type)`: the first index holding a value strictly equal to
`type`, or `-1`. -/
def indexOf (groups : List JsVal) (type : JsVal) : Int :=
  if List.indexOf type groups < groups.length then (List.indexOf type groups : Int) else -1

/-- The callback of `primaryData.forEach`, acting on the two local arrays `groups`
and `atomGrouped`.  `none` stands for the `TypeError` of reading `.list` of
`undefined`. -/
def forEachBody (acc : List JsVal × List Group) (item : Atom) :
    Option (List JsVal × List Group) :=
  let groups := acc.1
  let atomGrouped := acc.2
  let type := item.group_name
  let index := indexOf groups type
  if index > -1 then
    match atomGrouped[index.toNat]? with
    | none => none
    | some g =>
      let list := g.list
      let isCodeExisted := list.any (fun m => decide (m.code = item.code))
      if !isCodeExisted then
        some (groups, atomGrouped.set index.toNat { g with list := list ++ [item] })
      else
        some (groups, atomGrouped)
  else
    let newGroup : Group :=
      { type := type, group_name := item.group_name, group_icon := item.group_icon,
        list := [item] }
    some (groups ++ [type], atomGrouped ++ [newGroup])

/-- The loop `primaryData.forEach(...)` started with `groups = []` and
`atomGrouped = []`. -/
def forEachLoop (primaryData : List Atom) : Option (List JsVal × List Group) :=
  primaryData.foldlM forEachBody ([], [])

/-- Getter `singleAtomGrouped (state)`: reads `state.singleAtom`, runs the loop and
returns `[...atomGrouped]`. -/
def singleAtomGrouped (σ : Store) : Option (List Group) :=
  match σ.heap[σ.state.singleAtom]? with
  | none => none
  | some primaryData =>
    match forEachLoop primaryData with
    | none => none
    | some (_, atomGrouped) => some atomGrouped

/-! ## Reference definitions, written from the description of the grouped view -/

/-- The distinct values of a sequence, in order of first occurrence. -/
def firstSeen : List JsVal → List JsVal
  | [] => []
  | x :: xs => x :: (firstSeen xs).filter (fun y => decide (y ≠ x))

/-- Keep only the first record for each distinct `code`. -/
def keepFirstPerCode : List Atom → List Atom
  | [] => []
  | r :: rs => r :: (keepFirstPerCode rs).filter (fun m => decide (m.code ≠ r.code))

/-- The described `list` of the group named `n`: the records of `s` whose `group_name`
is `n`, in their order in `s`, keeping only the first record for each distinct
`code`. -/
def specList (s : List Atom) (n : JsVal) : List Atom :=
  keepFirstPerCode (s.filter (fun r => decide (r.group_name = n)))

/-- The first record of `s` whose `group_name` is `n`. -/
def firstOfGroup (s : List Atom) (n : JsVal) : Option Atom :=
  s.find? (fun r => decide (r.group_name = n))

/-- The first record of `s` that has the `group_name` and the `code` of `x`. -/
def firstWithKey (s : List Atom) (x : Atom) : Option Atom :=
  s.find? (fun r => decide (r.group_name = x.group_name) && decide (r.code = x.code))

/-- The described group named `n`: metadata of the first record with that name. -/
def specGroup (s : List Atom) (n : JsVal) : Group :=
  { type := n
    group_name := n
    group_icon := match firstOfGroup s n with
      | some r => r.group_icon
      | none => JsVal.undefined
    list := specList s n }

/-- The described grouped view of `s`. -/
def specGrouped (s : List Atom) : List Group :=
  (firstSeen (s.map (fun r => r.group_name))).map (specGroup s)

/-- The concatenation, in output order, of the lists of the groups. -/
def allRecords (gs : List Group) : List Atom :=
  gs.flatMap (fun g => g.list)

/-! ## Sample data -/

/-- The four records of the documented example, without further fields. -/
def sampleAtoms : List Atom :=
  [ { code := .str "a", group_name := .str "g1", group_icon := .undefined, extra := [] },
    { code := .str "b", group_name := .str "g1", group_icon := .undefined, extra := [] },
    { code := .str "a", group_name := .str "g1", group_icon := .undefined, extra := [] },
    { code := .str "c", group_name := .str "g2", group_icon := .undefined, extra := [] } ]

/-- A store whose `singleAtom` holds the sample records and whose `subAtom` is empty. -/
def sampleStore : Store :=
  { heap := [sampleAtoms, []], state := { singleAtom := 0, subAtom := 1 } }

/-- A second store with the same `singleAtom` contents at another address and a
non-empty `subAtom`. -/
def sampleStore₂ : Store :=
  { heap := [[{ code := .str "s", group_name := .str "sub", group_icon := .null, extra := [] }],
      [], sampleAtoms],
    state := { singleAtom := 2, subAtom := 0 } }

/-- A response whose payload lists the sample records. -/
def sampleResponse : Response :=
  { data := { objects := some sampleAtoms, extra := [("count", .num 4)] },
    extra := [("result", .bool true)] }

/-- A rejection reason. -/
def sampleError : JsError := { name := "Error", message := "Network Error" }

/-- An API client whose three calls are fulfilled with the sample response. -/
def sampleApi : Api :=
  { getSingleAtomList := fun _ => .resolved sampleResponse
    getSubAtomList := fun _ => .resolved sampleResponse
    queryAtom := fun _ => .resolved sampleResponse }

/-- An API client whose three calls are rejected with the sample error. -/
def failingApi : Api :=
  { getSingleAtomList := fun _ => .rejected sampleError
    getSubAtomList := fun _ => .rejected sampleError
    queryAtom := fun _ => .rejected sampleError }

/-- The context the store hands to an action. -/
def sampleContext : ActionContext := { commit := commitMutation }

/-- Query parameters of a sample call. -/
def sampleParams : Params := [("template_id", .num 7)]

/-- A first record with code `'a'` in group `'g1'`. -/
def duplicateFirst : Atom :=
  { code := .str "a", group_name := .str "g1", group_icon := .str "icon-1",
    extra := [("name", .str "first")] }

/-- A later record with the same code and group as `duplicateFirst`. -/
def duplicateSecond : Atom :=
  { code := .str "a", group_name := .str "g1", group_icon := .str "icon-1",
    extra := [("name", .str "second")] }

/-- A record with the same code in another group, `'g2'`. -/
def duplicateOther : Atom :=
  { code := .str "a", group_name := .str "g2", group_icon := .str "icon-2",
    extra := [("name", .str "other")] }

/-- A sequence in which `duplicateSecond` follows a record of its own group with its
code. -/
def duplicateAtoms : List Atom := [duplicateFirst, duplicateSecond, duplicateOther]

/-- A store whose `singleAtom` holds `duplicateAtoms`. -/
def duplicateStore : Store :=
  { heap := [duplicateAtoms, []], state := { singleAtom := 0, subAtom := 1 } }

/-- A sequence with pairwise distinct `(group_name, code)` pairs in which one code occurs
in two groups. -/
def crossGroupAtoms : List Atom :=
  [duplicateFirst, duplicateOther,
    { code := .str "b", group_name := .str "g1", group_icon := .null, extra := [] }]

/-- A store whose `singleAtom` holds `crossGroupAtoms`. -/
def crossGroupStore : Store :=
  { heap := [[], crossGroupAtoms], state := { singleAtom := 1, subAtom := 0 } }

end AtomList

namespace AtomList

/-! ## Lemmas on the reference definitions -/

theorem mem_firstSeen (x : JsVal) (xs : List JsVal) : x ∈ firstSeen xs ↔ x ∈ xs := by
  induction xs with
  | nil => simp [firstSeen]
  | cons a t ih =>
    simp only [firstSeen, List.mem_cons, List.mem_filter, ih, decide_eq_true_eq]
    by_cases h : x = a <;> simp [h]

theorem firstSeen_nodup (xs : List JsVal) : (firstSeen xs).Nodup := by
  induction xs with
  | nil => simp [firstSeen]
  | cons a t ih =>
    simp only [firstSeen, List.nodup_cons, List.mem_filter, decide_eq_true_eq]
    exact ⟨fun h => h.2 rfl, ih.filter _⟩

theorem firstSeen_concat (xs : List JsVal) (x : JsVal) :
    firstSeen (xs ++ [x]) =
      if x ∈ firstSeen xs then firstSeen xs else firstSeen xs ++ [x] := by
  induction xs with
  | nil => simp [firstSeen]
  | cons a t ih =>
    simp only [List.cons_append, firstSeen, List.append_eq, ih, List.mem_cons,
      List.mem_filter, decide_eq_true_eq]
    by_cases hx : x = a
    · subst hx
      by_cases hm : x ∈ firstSeen t <;> simp [hm, List.filter_append]
    · by_cases hm : x ∈ firstSeen t <;> simp [hm, hx, List.filter_append]

theorem mem_keepFirstPerCode_imp {l : List Atom} {x : Atom} (h : x ∈ keepFirstPerCode l) :
    x ∈ l := by
  induction l with
  | nil => simp [keepFirstPerCode] at h
  | cons r rs ih =>
    simp only [keepFirstPerCode, List.mem_cons, List.mem_filter] at h
    rcases h with h | h
    · exact h ▸ List.mem_cons_self _ _
    · exact List.mem_cons_of_mem _ (ih h.1)

theorem code_mem_keepFirstPerCode (l : List Atom) (c : JsVal) :
    (∃ m ∈ keepFirstPerCode l, m.code = c) ↔ ∃ m ∈ l, m.code = c := by
  induction l with
  | nil => simp [keepFirstPerCode]
  | cons r rs ih =>
    simp only [keepFirstPerCode, List.mem_cons, List.mem_filter, decide_eq_true_eq]
    constructor
    · rintro ⟨m, hm | hm, hc⟩
      · exact ⟨m, Or.inl hm, hc⟩
      · obtain ⟨m', hm', hc'⟩ := ih.mp ⟨m, hm.1, hc⟩
        exact ⟨m', Or.inr hm', hc'⟩
    · rintro ⟨m, hm | hm, hc⟩
      · exact ⟨r, Or.inl rfl, hm ▸ hc⟩
      · by_cases hr : r.code = c
        · exact ⟨r, Or.inl rfl, hr⟩
        · obtain ⟨m', hm', hc'⟩ := ih.mpr ⟨m, hm, hc⟩
          exact ⟨m', Or.inr ⟨hm', fun h => hr (h ▸ hc')⟩, hc'⟩

theorem keepFirstPerCode_concat (l : List Atom) (y : Atom) :
    keepFirstPerCode (l ++ [y]) =
      if (keepFirstPerCode l).any (fun m => decide (m.code = y.code)) then keepFirstPerCode l
      else keepFirstPerCode l ++ [y] := by
  induction l with
  | nil => simp [keepFirstPerCode]
  | cons r rs ih =>
    simp only [List.cons_append, keepFirstPerCode, List.append_eq, ih, List.any_cons,
      List.any_filter]
    by_cases hr : r.code = y.code
    · by_cases hm : (keepFirstPerCode rs).any (fun m => decide (m.code = y.code)) = true
      · simp [hm, hr]
      · simp [hm, hr, List.filter_append]
    · have hr' : ¬ y.code = r.code := fun h => hr h.symm
      have hany : (keepFirstPerCode rs).any
            (fun m => decide (m.code ≠ r.code) && decide (m.code = y.code)) =
          (keepFirstPerCode rs).any (fun m => decide (m.code = y.code)) := by
        congr 1
        funext m
        by_cases hm : m.code = y.code
        · simp [hm, hr']
        · simp [hm]
      rw [hany]
      by_cases hm : (keepFirstPerCode rs).any (fun m => decide (m.code = y.code)) = true
      · simp [hm, hr]
      · simp [hm, hr, hr', List.filter_append]

theorem specList_concat (s : List Atom) (y : Atom) (n : JsVal) :
    specList (s ++ [y]) n =
      if y.group_name = n then
        (if (specList s n).any (fun m => decide (m.code = y.code)) then specList s n
         else specList s n ++ [y])
      else specList s n := by
  unfold specList
  by_cases h : y.group_name = n
  · simp only [List.filter_append, h, if_true]
    have : List.filter (fun r => decide (r.group_name = n)) [y] = [y] := by simp [h]
    rw [this, keepFirstPerCode_concat]
  · simp [List.filter_append, h]

theorem firstOfGroup_isSome {s : List Atom} {n : JsVal}
    (h : n ∈ s.map (fun r => r.group_name)) : ∃ r, firstOfGroup s n = some r := by
  unfold firstOfGroup
  cases hf : s.find? (fun r => decide (r.group_name = n)) with
  | some r => exact ⟨r, rfl⟩
  | none =>
    rw [List.find?_eq_none] at hf
    obtain ⟨r, hr, hn⟩ := List.mem_map.mp h
    exact absurd (by simpa using hn) (hf r hr)

theorem firstOfGroup_concat_of_mem {s : List Atom} {n : JsVal} (y : Atom)
    (h : n ∈ s.map (fun r => r.group_name)) :
    firstOfGroup (s ++ [y]) n = firstOfGroup s n := by
  obtain ⟨r, hr⟩ := firstOfGroup_isSome h
  unfold firstOfGroup at hr ⊢
  rw [List.find?_append, hr]
  rfl

theorem firstOfGroup_concat_of_not_mem {s : List Atom} (y : Atom)
    (h : y.group_name ∉ s.map (fun r => r.group_name)) :
    firstOfGroup (s ++ [y]) y.group_name = some y := by
  unfold firstOfGroup
  have hnone : s.find? (fun r => decide (r.group_name = y.group_name)) = none := by
    rw [List.find?_eq_none]
    intro r hr hp
    exact h (List.mem_map.mpr ⟨r, hr, by simpa using hp⟩)
  rw [List.find?_append, hnone]
  simp

theorem specList_of_not_mem {s : List Atom} {n : JsVal}
    (h : n ∉ s.map (fun r => r.group_name)) : specList s n = [] := by
  unfold specList
  have : s.filter (fun r => decide (r.group_name = n)) = [] := by
    rw [List.filter_eq_nil_iff]
    intro r hr hp
    exact h (List.mem_map.mpr ⟨r, hr, by simpa using hp⟩)
  rw [this]
  rfl

theorem specGroup_concat_ne {s : List Atom} {n : JsVal} (y : Atom)
    (h : n ∈ s.map (fun r => r.group_name)) (hne : ¬ n = y.group_name) :
    specGroup (s ++ [y]) n = specGroup s n := by
  have hne' : ¬ y.group_name = n := fun e => hne e.symm
  simp only [specGroup, firstOfGroup_concat_of_mem y h, specList_concat, hne', if_false]

theorem specGroup_concat_eq {s : List Atom} (y : Atom)
    (h : y.group_name ∈ s.map (fun r => r.group_name)) :
    specGroup (s ++ [y]) y.group_name =
      { specGroup s y.group_name with
        list := if (specList s y.group_name).any (fun m => decide (m.code = y.code))
          then specList s y.group_name else specList s y.group_name ++ [y] } := by
  simp only [specGroup, firstOfGroup_concat_of_mem y h, specList_concat, if_true]

theorem specGroup_concat_new {s : List Atom} (y : Atom)
    (h : y.group_name ∉ s.map (fun r => r.group_name)) :
    specGroup (s ++ [y]) y.group_name =
      { type := y.group_name, group_name := y.group_name, group_icon := y.group_icon,
        list := [y] } := by
  simp [specGroup, firstOfGroup_concat_of_not_mem y h, specList_concat,
    specList_of_not_mem h]

/-! ## Lemmas on array indexing -/

theorem indexOf_of_mem {groups : List JsVal} {type : JsVal} (h : type ∈ groups) :
    indexOf groups type = (List.indexOf type groups : Int) := by
  simp [indexOf, List.indexOf_lt_length.mpr h]

theorem indexOf_of_not_mem {groups : List JsVal} {type : JsVal} (h : type ∉ groups) :
    indexOf groups type = -1 := by
  have : ¬ List.indexOf type groups < groups.length := fun hl =>
    h (List.indexOf_lt_length.mp hl)
  simp [indexOf, this]

theorem getElem?_map_indexOf (f : JsVal → Group) {l : List JsVal} {a : JsVal}
    (h : a ∈ l) : (l.map f)[List.indexOf a l]? = some (f a) := by
  induction l with
  | nil => simp at h
  | cons b t ih =>
    by_cases hb : b = a
    · subst hb
      simp
    · have ha : a ∈ t := by
        rcases List.mem_cons.mp h with h | h
        · exact absurd h.symm hb
        · exact h
      rw [List.indexOf_cons_ne _ hb]
      simpa using ih ha

theorem map_set_indexOf (f : JsVal → Group) (v : Group) {l : List JsVal} {a : JsVal}
    (hnd : l.Nodup) (h : a ∈ l) :
    (l.map f).set (List.indexOf a l) v = l.map (fun x => if x = a then v else f x) := by
  induction l with
  | nil => simp at h
  | cons b t ih =>
    have hnd' := List.nodup_cons.mp hnd
    by_cases hb : b = a
    · subst hb
      simp only [List.indexOf_cons_self, List.map_cons, List.set_cons_zero, if_true]
      congr 1
      apply List.map_congr_left
      intro x hx
      have : ¬ x = b := fun e => hnd'.1 (e ▸ hx)
      simp [this]
    · have ha : a ∈ t := by
        rcases List.mem_cons.mp h with h | h
        · exact absurd h.symm hb
        · exact h
      rw [List.indexOf_cons_ne _ hb]
      simp only [List.map_cons, List.set_cons_succ, hb, if_false]
      rw [ih hnd'.2 ha]

/-! ## The loop computes the described grouped view -/

theorem forEachBody_spec (s : List Atom) (y : Atom) :
    forEachBody (firstSeen (s.map (fun r => r.group_name)), specGrouped s) y =
      some (firstSeen ((s ++ [y]).map (fun r => r.group_name)), specGrouped (s ++ [y])) := by
  have hnames : firstSeen ((s ++ [y]).map (fun r => r.group_name)) =
      if y.group_name ∈ firstSeen (s.map (fun r => r.group_name))
      then firstSeen (s.map (fun r => r.group_name))
      else firstSeen (s.map (fun r => r.group_name)) ++ [y.group_name] := by
    rw [List.map_append]
    exact firstSeen_concat _ _
  have hold : ∀ n ∈ firstSeen (s.map (fun r => r.group_name)), ¬ n = y.group_name →
      specGroup (s ++ [y]) n = specGroup s n := fun n hn hne =>
    specGroup_concat_ne y ((mem_firstSeen _ _).mp hn) hne
  by_cases hmem : y.group_name ∈ firstSeen (s.map (fun r => r.group_name))
  · have hmem' := (mem_firstSeen _ _).mp hmem
    have hidx := indexOf_of_mem hmem
    have hpos : indexOf (firstSeen (s.map (fun r => r.group_name))) y.group_name > -1 := by
      rw [hidx]; omega
    have hget : (specGrouped s)[(indexOf (firstSeen (s.map (fun r => r.group_name)))
        y.group_name).toNat]? = some (specGroup s y.group_name) := by
      rw [hidx, Int.toNat_ofNat]
      exact getElem?_map_indexOf (specGroup s) hmem
    have hgoal : specGrouped (s ++ [y]) =
        (firstSeen (s.map (fun r => r.group_name))).map
          (fun n => if n = y.group_name then specGroup (s ++ [y]) y.group_name
            else specGroup s n) := by
      unfold specGrouped
      rw [hnames, if_pos hmem]
      apply List.map_congr_left
      intro n hn
      by_cases hne : n = y.group_name
      · simp [hne]
      · simp [hne, hold n hn hne]
    simp only [forEachBody, hpos, if_true, hget]
    rw [hnames, if_pos hmem, hgoal, specGroup_concat_eq y hmem']
    by_cases hany : (specGroup s y.group_name).list.any
        (fun m => decide (m.code = y.code)) = true
    · have hany' : (specList s y.group_name).any (fun m => decide (m.code = y.code)) = true :=
        hany
      simp only [hany, Bool.not_true, Bool.false_eq_true, ↓reduceIte, hany']
      refine congrArg some (congrArg (Prod.mk _) ?_)
      unfold specGrouped
      apply List.map_congr_left
      intro n hn
      by_cases hne : n = y.group_name
      · simp only [hne, if_true]
        rfl
      · simp [hne]
    · have hany' : ¬ (specList s y.group_name).any (fun m => decide (m.code = y.code)) = true :=
        hany
      have hf : (specGroup s y.group_name).list.any
          (fun m => decide (m.code = y.code)) = false := by simpa using hany
      simp only [hf, Bool.not_false, ↓reduceIte, hany']
      refine congrArg some (congrArg (Prod.mk _) ?_)
      rw [hidx, Int.toNat_ofNat]
      unfold specGrouped
      rw [map_set_indexOf (specGroup s) _ (firstSeen_nodup _) hmem]
      rfl
  · have hmem' : y.group_name ∉ s.map (fun r => r.group_name) := fun h =>
      hmem ((mem_firstSeen _ _).mpr h)
    have hidx := indexOf_of_not_mem hmem
    have hpos : ¬ indexOf (firstSeen (s.map (fun r => r.group_name))) y.group_name > -1 := by
      rw [hidx]; omega
    simp only [forEachBody, hpos, if_false]
    rw [hnames, if_neg hmem]
    refine congrArg some (congrArg (Prod.mk _) ?_)
    unfold specGrouped
    rw [hnames, if_neg hmem, List.map_append, List.map_singleton,
      specGroup_concat_new y hmem']
    congr 1
    apply List.map_congr_left
    intro n hn
    have hne : ¬ n = y.group_name := fun e => hmem (e ▸ hn)
    exact (hold n hn hne).symm

theorem forEachLoop_eq (s : List Atom) :
    forEachLoop s = some (firstSeen (s.map (fun r => r.group_name)), specGrouped s) := by
  induction s using List.reverseRecOn with
  | nil => rfl
  | append_singleton p y ih =>
    unfold forEachLoop at ih ⊢
    rw [List.foldlM_append, ih]
    simp only [Option.bind_eq_bind, Option.some_bind, List.foldlM_cons, List.foldlM_nil,
      forEachBody_spec, Option.pure_def]

theorem singleAtomGrouped_eq {σ : Store} {s : List Atom} (h : readSingleAtom σ = some s) :
    singleAtomGrouped σ = some (specGrouped s) := by
  unfold readSingleAtom at h
  simp [singleAtomGrouped, h, forEachLoop_eq]

/-! ## Properties of the described grouped view -/

theorem specGrouped_names (s : List Atom) :
    (specGrouped s).map (fun g => g.group_name) = firstSeen (s.map (fun r => r.group_name)) := by
  unfold specGrouped
  rw [List.map_map]
  conv_rhs => rw [← List.map_id (firstSeen (s.map (fun r => r.group_name)))]
  apply List.map_congr_left
  intro n _
  rfl

theorem mem_specGrouped {s : List Atom} {g : Group} (h : g ∈ specGrouped s) :
    ∃ n, n ∈ s.map (fun r => r.group_name) ∧ g = specGroup s n := by
  unfold specGrouped at h
  obtain ⟨n, hn, hg⟩ := List.mem_map.mp h
  exact ⟨n, (mem_firstSeen _ _).mp hn, hg.symm⟩

theorem firstSeen_pairwise (xs : List JsVal) :
    (firstSeen xs).Pairwise (fun a b => List.indexOf a xs < List.indexOf b xs) := by
  induction xs with
  | nil => simp [firstSeen]
  | cons a t ih =>
    simp only [firstSeen, List.pairwise_cons, List.mem_filter, decide_eq_true_eq]
    refine ⟨?_, ?_⟩
    · intro b hb
      rw [List.indexOf_cons_self, List.indexOf_cons_ne _ (fun e => hb.2 e.symm)]
      exact Nat.succ_pos _
    · refine List.Pairwise.imp_of_mem ?_ (ih.filter _)
      intro x y hx hy hxy
      have hx' : ¬ x = a := by simpa using (List.mem_filter.mp hx).2
      have hy' : ¬ y = a := by simpa using (List.mem_filter.mp hy).2
      rw [List.indexOf_cons_ne _ (fun e => hx' e.symm),
        List.indexOf_cons_ne _ (fun e => hy' e.symm)]
      exact Nat.succ_lt_succ hxy

theorem keepFirstPerCode_sublist (l : List Atom) : (keepFirstPerCode l).Sublist l := by
  induction l with
  | nil => exact List.Sublist.refl _
  | cons r rs ih =>
    simp only [keepFirstPerCode]
    exact List.Sublist.cons₂ _ ((List.filter_sublist _).trans ih)

theorem keepFirstPerCode_codes_nodup (l : List Atom) :
    ((keepFirstPerCode l).map (fun m => m.code)).Nodup := by
  induction l with
  | nil => simp [keepFirstPerCode]
  | cons r rs ih =>
    simp only [keepFirstPerCode, List.map_cons, List.nodup_cons, List.mem_map,
      List.mem_filter, decide_eq_true_eq]
    refine ⟨?_, ?_⟩
    · rintro ⟨m, ⟨_, hne⟩, he⟩
      exact hne he
    · exact ih.sublist ((List.filter_sublist _).map _)

theorem find?_of_mem_keepFirstPerCode {l : List Atom} {x : Atom}
    (h : x ∈ keepFirstPerCode l) :
    l.find? (fun m => decide (m.code = x.code)) = some x := by
  induction l with
  | nil => simp [keepFirstPerCode] at h
  | cons r rs ih =>
    simp only [keepFirstPerCode, List.mem_cons, List.mem_filter, decide_eq_true_eq] at h
    rcases h with h | h
    · subst h
      simp
    · have hne : ¬ r.code = x.code := fun e => h.2 e.symm
      rw [List.find?_cons_of_neg _ (by simpa using hne)]
      exact ih h.1

theorem mem_keepFirstPerCode_of_first {l₁ l₂ : List Atom} {y : Atom}
    (h : ∀ m ∈ l₁, ¬ m.code = y.code) : y ∈ keepFirstPerCode (l₁ ++ y :: l₂) := by
  induction l₁ with
  | nil => simp [keepFirstPerCode]
  | cons r rs ih =>
    simp only [List.cons_append, keepFirstPerCode, List.append_eq, List.mem_cons,
      List.mem_filter, decide_eq_true_eq]
    right
    refine ⟨ih (fun m hm => h m (List.mem_cons_of_mem _ hm)), ?_⟩
    exact fun e => h r (List.mem_cons_self _ _) e.symm

theorem mem_specList {s : List Atom} {n : JsVal} {x : Atom} (h : x ∈ specList s n) :
    x ∈ s ∧ x.group_name = n := by
  have hm := mem_keepFirstPerCode_imp h
  rw [List.mem_filter] at hm
  exact ⟨hm.1, by simpa using hm.2⟩

theorem firstWithKey_of_mem_specList {s : List Atom} {n : JsVal} {x : Atom}
    (h : x ∈ specList s n) : firstWithKey s x = some x := by
  have hn := (mem_specList h).2
  have hf := find?_of_mem_keepFirstPerCode h
  rw [List.find?_filter] at hf
  have hfun : (fun r : Atom => decide (r.group_name = n) && decide (r.code = x.code)) =
      (fun a => decide (decide (a.group_name = n) = true ∧ decide (a.code = x.code) = true)) := by
    funext a
    simp
  unfold firstWithKey
  rw [hn, hfun]
  exact hf

theorem specList_sublist (s : List Atom) (n : JsVal) : (specList s n).Sublist s :=
  (keepFirstPerCode_sublist _).trans (List.filter_sublist _)

theorem code_mem_specList {s : List Atom} {r : Atom} (h : r ∈ s) :
    ∃ x ∈ specList s r.group_name, x.code = r.code := by
  unfold specList
  rw [code_mem_keepFirstPerCode]
  exact ⟨r, List.mem_filter.mpr ⟨h, by simp⟩, rfl⟩

theorem mem_specList_of_first {p q : List Atom} {y : Atom}
    (h : ∀ m ∈ p, ¬ (m.group_name = y.group_name ∧ m.code = y.code)) :
    y ∈ specList (p ++ y :: q) y.group_name := by
  unfold specList
  have hy : List.filter (fun r => decide (r.group_name = y.group_name)) (y :: q) =
      y :: List.filter (fun r => decide (r.group_name = y.group_name)) q := by simp
  rw [List.filter_append, hy]
  apply mem_keepFirstPerCode_of_first
  intro m hm hc
  rw [List.mem_filter] at hm
  exact h m hm.1 ⟨by simpa using hm.2, hc⟩

theorem specGroup_mem_specGrouped {s : List Atom} {n : JsVal}
    (h : n ∈ s.map (fun r => r.group_name)) : specGroup s n ∈ specGrouped s :=
  List.mem_map.mpr ⟨n, (mem_firstSeen _ _).mpr h, rfl⟩

/-! ## The grouped view: group names -/

/-- C1: the `group_name` values of the groups returned by `singleAtomGrouped`, read in
output order, are exactly the distinct `group_name` values of `singleAtom` in order of
first occurrence: no name occurs in two groups, every name of an input record occurs,
every group name comes from an input record, and the groups are ordered by the position
of their first record in `singleAtom`. -/
theorem singleAtomGrouped_group_names (σ : Store) (s : List Atom)
    (h : readSingleAtom σ = some s) :
    ∃ gs, singleAtomGrouped σ = some gs ∧
      (gs.map (fun g => g.group_name)).Nodup ∧
      (∀ r ∈ s, r.group_name ∈ gs.map (fun g => g.group_name)) ∧
      (∀ n ∈ gs.map (fun g => g.group_name), n ∈ s.map (fun r => r.group_name)) ∧
      (gs.map (fun g => g.group_name)).Pairwise (fun a b =>
        List.indexOf a (s.map (fun r => r.group_name)) <
          List.indexOf b (s.map (fun r => r.group_name))) ∧
      gs.map (fun g => g.group_name) = firstSeen (s.map (fun r => r.group_name)) := by
  refine ⟨specGrouped s, singleAtomGrouped_eq h, ?_⟩
  rw [specGrouped_names]
  refine ⟨firstSeen_nodup _, ?_, ?_, firstSeen_pairwise _, rfl⟩
  · intro r hr
    exact (mem_firstSeen _ _).mpr (List.mem_map.mpr ⟨r, hr, rfl⟩)
  · intro n hn
    exact (mem_firstSeen _ _).mp hn

/-- Witness for C1 on the sample store. -/
theorem singleAtomGrouped_group_names_witness :
    ∃ gs, singleAtomGrouped sampleStore = some gs ∧
      (gs.map (fun g => g.group_name)).Nodup ∧
      (∀ r ∈ sampleAtoms, r.group_name ∈ gs.map (fun g => g.group_name)) ∧
      (∀ n ∈ gs.map (fun g => g.group_name), n ∈ sampleAtoms.map (fun r => r.group_name)) ∧
      (gs.map (fun g => g.group_name)).Pairwise (fun a b =>
        List.indexOf a (sampleAtoms.map (fun r => r.group_name)) <
          List.indexOf b (sampleAtoms.map (fun r => r.group_name))) ∧
      gs.map (fun g => g.group_name) = firstSeen (sampleAtoms.map (fun r => r.group_name)) :=
  singleAtomGrouped_group_names sampleStore sampleAtoms rfl

/-! ## The grouped view: duplicate suppression -/

/-- C2: in every group returned by `singleAtomGrouped` no two records of the list have
the same `code`; every record of a list carries the group's name and is the first record
of `singleAtom` with its `group_name` and `code` (so a later record with the same pair
does not appear); and for every input record the group of its name holds a record with
its `code`. -/
theorem singleAtomGrouped_first_code_wins (σ : Store) (s : List Atom)
    (h : readSingleAtom σ = some s) :
    ∃ gs, singleAtomGrouped σ = some gs ∧
      (∀ g ∈ gs, (g.list.map (fun m => m.code)).Nodup) ∧
      (∀ g ∈ gs, ∀ x ∈ g.list, x.group_name = g.group_name ∧ firstWithKey s x = some x) ∧
      (∀ g ∈ gs, ∀ r ∈ s, firstWithKey s r ≠ some r → r ∉ g.list) ∧
      (∀ r ∈ s, ∃ g ∈ gs, g.group_name = r.group_name ∧ ∃ x ∈ g.list, x.code = r.code) := by
  refine ⟨specGrouped s, singleAtomGrouped_eq h, ?_, ?_, ?_, ?_⟩
  · intro g hg
    obtain ⟨n, _, rfl⟩ := mem_specGrouped hg
    exact keepFirstPerCode_codes_nodup _
  · intro g hg x hx
    obtain ⟨n, _, rfl⟩ := mem_specGrouped hg
    exact ⟨(mem_specList hx).2, firstWithKey_of_mem_specList hx⟩
  · intro g hg r _ hne hr
    obtain ⟨n, _, rfl⟩ := mem_specGrouped hg
    exact hne (firstWithKey_of_mem_specList hr)
  · intro r hr
    exact ⟨specGroup s r.group_name,
      specGroup_mem_specGrouped (List.mem_map.mpr ⟨r, hr, rfl⟩), rfl, code_mem_specList hr⟩

/-- Witness for C2 on the sample store. -/
theorem singleAtomGrouped_first_code_wins_witness :
    ∃ gs, singleAtomGrouped sampleStore = some gs ∧
      (∀ g ∈ gs, (g.list.map (fun m => m.code)).Nodup) ∧
      (∀ g ∈ gs, ∀ x ∈ g.list,
        x.group_name = g.group_name ∧ firstWithKey sampleAtoms x = some x) ∧
      (∀ g ∈ gs, ∀ r ∈ sampleAtoms, firstWithKey sampleAtoms r ≠ some r → r ∉ g.list) ∧
      (∀ r ∈ sampleAtoms,
        ∃ g ∈ gs, g.group_name = r.group_name ∧ ∃ x ∈ g.list, x.code = r.code) :=
  singleAtomGrouped_first_code_wins sampleStore sampleAtoms rfl

/-- C3: for every group `g` returned by `singleAtomGrouped`, `g.list` is the sequence of
the records of `singleAtom` whose `group_name` is `g.group_name`, in their order, keeping
only the first record per `code`; every record whose `(group_name, code)` pair has not
occurred earlier is present in the group of its name; and each list keeps the order of
`singleAtom`. -/
theorem singleAtomGrouped_list_eq_specList (σ : Store) (s : List Atom)
    (h : readSingleAtom σ = some s) :
    ∃ gs, singleAtomGrouped σ = some gs ∧
      (∀ g ∈ gs, g.list = specList s g.group_name) ∧
      (∀ (p q : List Atom) (y : Atom), s = p ++ y :: q →
        (∀ m ∈ p, ¬ (m.group_name = y.group_name ∧ m.code = y.code)) →
        ∃ g ∈ gs, g.group_name = y.group_name ∧ y ∈ g.list) ∧
      (∀ g ∈ gs, g.list.Sublist s) := by
  refine ⟨specGrouped s, singleAtomGrouped_eq h, ?_, ?_, ?_⟩
  · intro g hg
    obtain ⟨n, _, rfl⟩ := mem_specGrouped hg
    rfl
  · intro p q y hs hfirst
    subst hs
    refine ⟨specGroup (p ++ y :: q) y.group_name, specGroup_mem_specGrouped ?_, rfl,
      mem_specList_of_first hfirst⟩
    simp
  · intro g hg
    obtain ⟨n, _, rfl⟩ := mem_specGrouped hg
    exact specList_sublist s n

/-- Witness for C3 on the sample store. -/
theorem singleAtomGrouped_list_eq_specList_witness :
    ∃ gs, singleAtomGrouped sampleStore = some gs ∧
      (∀ g ∈ gs, g.list = specList sampleAtoms g.group_name) ∧
      (∀ (p q : List Atom) (y : Atom), sampleAtoms = p ++ y :: q →
        (∀ m ∈ p, ¬ (m.group_name = y.group_name ∧ m.code = y.code)) →
        ∃ g ∈ gs, g.group_name = y.group_name ∧ y ∈ g.list) ∧
      (∀ g ∈ gs, g.list.Sublist sampleAtoms) :=
  singleAtomGrouped_list_eq_specList sampleStore sampleAtoms rfl

/-! ## The grouped view: group metadata -/

theorem firstOfGroup_append_of_mem {s : List Atom} {n : JsVal} (t : List Atom)
    (h : n ∈ s.map (fun r => r.group_name)) :
    firstOfGroup (s ++ t) n = firstOfGroup s n := by
  obtain ⟨r, hr⟩ := firstOfGroup_isSome h
  unfold firstOfGroup at hr ⊢
  rw [List.find?_append, hr]
  rfl

/-- C4: every group `g` returned by `singleAtomGrouped` has `g.type = g.group_name`, and
`g.group_name` and `g.group_icon` are those of the first record of `singleAtom` with that
`group_name`; records that follow in `singleAtom` do not change the `type`, `group_name`
or `group_icon` of the group, whatever their `group_icon`. -/
theorem singleAtomGrouped_group_metadata (σ : Store) (s : List Atom)
    (h : readSingleAtom σ = some s) :
    ∃ gs, singleAtomGrouped σ = some gs ∧
      (∀ g ∈ gs, g.type = g.group_name ∧
        ∃ r, firstOfGroup s g.group_name = some r ∧
          g.group_name = r.group_name ∧ g.group_icon = r.group_icon) ∧
      (∀ (σ₂ : Store) (t : List Atom), readSingleAtom σ₂ = some (s ++ t) →
        ∃ gs₂, singleAtomGrouped σ₂ = some gs₂ ∧
          ∀ g ∈ gs, ∃ g₂ ∈ gs₂, g₂.type = g.type ∧ g₂.group_name = g.group_name ∧
            g₂.group_icon = g.group_icon) := by
  refine ⟨specGrouped s, singleAtomGrouped_eq h, ?_, ?_⟩
  · intro g hg
    obtain ⟨n, hn, rfl⟩ := mem_specGrouped hg
    refine ⟨rfl, ?_⟩
    obtain ⟨r, hr⟩ := firstOfGroup_isSome hn
    have hrn : r.group_name = n := by
      have := List.find?_some hr
      simpa using this
    refine ⟨r, hr, hrn.symm, ?_⟩
    simp only [specGroup, hr]
  · intro σ₂ t h₂
    refine ⟨specGrouped (s ++ t), singleAtomGrouped_eq h₂, ?_⟩
    intro g hg
    obtain ⟨n, hn, rfl⟩ := mem_specGrouped hg
    refine ⟨specGroup (s ++ t) n, specGroup_mem_specGrouped ?_, rfl, rfl, ?_⟩
    · rw [List.map_append]
      exact List.mem_append_left _ hn
    · simp only [specGroup, firstOfGroup_append_of_mem t hn]

/-- Witness for C4 on the sample store. -/
theorem singleAtomGrouped_group_metadata_witness :
    ∃ gs, singleAtomGrouped sampleStore = some gs ∧
      (∀ g ∈ gs, g.type = g.group_name ∧
        ∃ r, firstOfGroup sampleAtoms g.group_name = some r ∧
          g.group_name = r.group_name ∧ g.group_icon = r.group_icon) ∧
      (∀ (σ₂ : Store) (t : List Atom), readSingleAtom σ₂ = some (sampleAtoms ++ t) →
        ∃ gs₂, singleAtomGrouped σ₂ = some gs₂ ∧
          ∀ g ∈ gs, ∃ g₂ ∈ gs₂, g₂.type = g.type ∧ g₂.group_name = g.group_name ∧
            g₂.group_icon = g.group_icon) :=
  singleAtomGrouped_group_metadata sampleStore sampleAtoms rfl

/-! ## The grouped view: the empty sequence, the documented example, purity -/

/-- C5: `singleAtomGrouped` applied to a state whose `singleAtom` is the empty sequence
returns the empty sequence. -/
theorem singleAtomGrouped_empty (σ : Store) (h : readSingleAtom σ = some []) :
    singleAtomGrouped σ = some [] := by
  unfold readSingleAtom at h
  simp only [singleAtomGrouped, h]
  rfl

/-- Witness for C5: the module as created. -/
theorem singleAtomGrouped_empty_witness : singleAtomGrouped initialStore = some [] :=
  singleAtomGrouped_empty initialStore rfl

/-- C6: for `singleAtom = [{code:'a',group_name:'g1'}, {code:'b',group_name:'g1'},
{code:'a',group_name:'g1'}, {code:'c',group_name:'g2'}]`, whatever the icons and the other
fields of the four records, `singleAtomGrouped` returns exactly two groups in this order:
type and group_name `'g1'` with list `[first record, second record]`, then type and
group_name `'g2'` with list `[fourth record]`. -/
theorem singleAtomGrouped_example (σ : Store) (i₁ i₂ i₃ i₄ : JsVal)
    (e₁ e₂ e₃ e₄ : List (String × JsVal))
    (h : readSingleAtom σ = some
      [ { code := .str "a", group_name := .str "g1", group_icon := i₁, extra := e₁ },
        { code := .str "b", group_name := .str "g1", group_icon := i₂, extra := e₂ },
        { code := .str "a", group_name := .str "g1", group_icon := i₃, extra := e₃ },
        { code := .str "c", group_name := .str "g2", group_icon := i₄, extra := e₄ } ]) :
    singleAtomGrouped σ = some
      [ { type := .str "g1", group_name := .str "g1", group_icon := i₁,
          list :=
            [ { code := .str "a", group_name := .str "g1", group_icon := i₁, extra := e₁ },
              { code := .str "b", group_name := .str "g1", group_icon := i₂, extra := e₂ } ] },
        { type := .str "g2", group_name := .str "g2", group_icon := i₄,
          list :=
            [ { code := .str "c", group_name := .str "g2", group_icon := i₄, extra := e₄ } ] } ] := by
  unfold readSingleAtom at h
  simp only [singleAtomGrouped, h]
  simp [forEachLoop, forEachBody, indexOf, List.indexOf_cons, List.foldlM]

/-- Witness for C6: the example as written, records without icon or further fields. -/
theorem singleAtomGrouped_example_witness :
    singleAtomGrouped sampleStore = some
      [ { type := .str "g1", group_name := .str "g1", group_icon := .undefined,
          list :=
            [ { code := .str "a", group_name := .str "g1", group_icon := .undefined,
                extra := [] },
              { code := .str "b", group_name := .str "g1", group_icon := .undefined,
                extra := [] } ] },
        { type := .str "g2", group_name := .str "g2", group_icon := .undefined,
          list :=
            [ { code := .str "c", group_name := .str "g2", group_icon := .undefined,
                extra := [] } ] } ] :=
  singleAtomGrouped_example sampleStore .undefined .undefined .undefined .undefined
    [] [] [] [] rfl

/-- C7: the grouped view is a function of the contents of `singleAtom` alone: two states
with the same `singleAtom` sequence give equal results of `singleAtomGrouped`, whatever
their `subAtom` sequences (and wherever the arrays are stored). -/
theorem singleAtomGrouped_depends_on_singleAtom_only (σ₁ σ₂ : Store)
    (h : readSingleAtom σ₁ = readSingleAtom σ₂) :
    singleAtomGrouped σ₁ = singleAtomGrouped σ₂ := by
  unfold readSingleAtom at h
  simp only [singleAtomGrouped, h]

/-- Witness for C7: two stores with equal `singleAtom` and different `subAtom`. -/
theorem singleAtomGrouped_depends_on_singleAtom_only_witness :
    readSubAtom sampleStore ≠ readSubAtom sampleStore₂ ∧
      singleAtomGrouped sampleStore = singleAtomGrouped sampleStore₂ :=
  ⟨by decide, singleAtomGrouped_depends_on_singleAtom_only sampleStore sampleStore₂ rfl⟩

/-! ## Mutations -/

theorem lt_length_of_getElem? {heap : Heap} {r : Ref} {xs : List Atom}
    (h : heap[r]? = some xs) : r < heap.length := by
  obtain ⟨hlt, _⟩ := List.getElem?_eq_some_iff.mp h
  exact hlt

theorem getElem?_append_of_some {heap : Heap} {r : Ref} {xs : List Atom} (tl : Heap)
    (h : heap[r]? = some xs) : (heap ++ tl)[r]? = some xs := by
  rw [List.getElem?_append_left (lt_length_of_getElem? h)]
  exact h

theorem setSingleAtom_eq {σ : Store} {data : Ref} {xs : List Atom}
    (h : σ.heap[data]? = some xs) :
    setSingleAtom σ data =
      some { heap := σ.heap ++ [xs],
             state := { singleAtom := σ.heap.length, subAtom := σ.state.subAtom } } := by
  simp only [setSingleAtom, spread, h]

theorem setSubAtom_eq {σ : Store} {data : Ref} {xs : List Atom}
    (h : σ.heap[data]? = some xs) :
    setSubAtom σ data =
      some { heap := σ.heap ++ [xs],
             state := { singleAtom := σ.state.singleAtom, subAtom := σ.heap.length } } := by
  simp only [setSubAtom, spread, h]

theorem getElem?_modify_fresh (heap : Heap) (xs : List Atom) (f : List Atom → List Atom)
    {data : Ref} (h : data < heap.length) :
    (List.modify f data (heap ++ [xs]))[heap.length]? = some xs := by
  rw [List.getElem?_modify_ne _ _ (Nat.ne_of_lt h), List.getElem?_concat_length]

theorem getElem?_modify_data {heap : Heap} {xs : List Atom} (ys : List Atom)
    (f : List Atom → List Atom) {data : Ref} (h : heap[data]? = some xs) :
    (List.modify f data (heap ++ [ys]))[data]? = some (f xs) := by
  rw [List.getElem?_modify_eq, getElem?_append_of_some _ h]
  rfl

theorem wellFormed_initialStore : WellFormed initialStore := by decide

theorem setSingleAtom_wellFormed {σ σ₁ : Store} {data : Ref} (hwf : WellFormed σ)
    (h : setSingleAtom σ data = some σ₁) : WellFormed σ₁ := by
  cases hd : σ.heap[data]? with
  | none => simp [setSingleAtom, spread, hd] at h
  | some xs =>
    rw [setSingleAtom_eq hd] at h
    cases h
    exact ⟨by simp, by simpa using Nat.lt_succ_of_lt hwf.2⟩

theorem setSubAtom_wellFormed {σ σ₁ : Store} {data : Ref} (hwf : WellFormed σ)
    (h : setSubAtom σ data = some σ₁) : WellFormed σ₁ := by
  cases hd : σ.heap[data]? with
  | none => simp [setSubAtom, spread, hd] at h
  | some xs =>
    rw [setSubAtom_eq hd] at h
    cases h
    exact ⟨by simpa using Nat.lt_succ_of_lt hwf.1, by simp⟩

/-- C8: after `setSingleAtom(state, data)` the array `state.singleAtom` holds exactly the
elements of `data`, in the same order (while `data` keeps its elements); likewise after
`setSubAtom(state, data)` for `state.subAtom`. -/
theorem setSingleAtom_setSubAtom_content (σ : Store) (data : Ref) (xs : List Atom)
    (h : σ.heap[data]? = some xs) :
    (∃ σ₁, setSingleAtom σ data = some σ₁ ∧ readSingleAtom σ₁ = some xs ∧
      σ₁.heap[data]? = some xs) ∧
    (∃ σ₂, setSubAtom σ data = some σ₂ ∧ readSubAtom σ₂ = some xs ∧
      σ₂.heap[data]? = some xs) := by
  refine ⟨⟨_, setSingleAtom_eq h, ?_, getElem?_append_of_some _ h⟩,
    ⟨_, setSubAtom_eq h, ?_, getElem?_append_of_some _ h⟩⟩
  · exact List.getElem?_concat_length _ _
  · exact List.getElem?_concat_length _ _

/-- Witness for C8: committing the array of the sample store that holds the records. -/
theorem setSingleAtom_setSubAtom_content_witness :
    (∃ σ₁, setSingleAtom sampleStore 0 = some σ₁ ∧ readSingleAtom σ₁ = some sampleAtoms ∧
      σ₁.heap[0]? = some sampleAtoms) ∧
    (∃ σ₂, setSubAtom sampleStore 0 = some σ₂ ∧ readSubAtom σ₂ = some sampleAtoms ∧
      σ₂.heap[0]? = some sampleAtoms) :=
  setSingleAtom_setSubAtom_content sampleStore 0 sampleAtoms rfl

/-- C9: the array stored by `setSingleAtom(state, data)` is a distinct copy of `data`: it
is another array object, and appending to `data`, removing from `data` or replacing an
element of `data` after the call changes `data` and leaves `state.singleAtom` as it
was. -/
theorem setSingleAtom_distinct_copy (σ : Store) (data : Ref) (xs : List Atom)
    (h : σ.heap[data]? = some xs) :
    ∃ σ₁, setSingleAtom σ data = some σ₁ ∧ σ₁.state.singleAtom ≠ data ∧
      ∀ (x : Atom) (i : Nat),
        (readSingleAtom (arrayPush σ₁ data x) = some xs ∧
          (arrayPush σ₁ data x).heap[data]? = some (xs ++ [x])) ∧
        (readSingleAtom (arrayPop σ₁ data) = some xs ∧
          (arrayPop σ₁ data).heap[data]? = some xs.dropLast) ∧
        (readSingleAtom (arrayRemoveAt σ₁ data i) = some xs ∧
          (arrayRemoveAt σ₁ data i).heap[data]? = some (xs.eraseIdx i)) ∧
        (readSingleAtom (arrayReplace σ₁ data i x) = some xs ∧
          (arrayReplace σ₁ data i x).heap[data]? = some (xs.set i x)) := by
  have hlt := lt_length_of_getElem? h
  refine ⟨_, setSingleAtom_eq h, ?_, ?_⟩
  · exact Nat.ne_of_gt hlt
  · intro x i
    exact ⟨⟨getElem?_modify_fresh _ _ _ hlt, getElem?_modify_data _ _ h⟩,
      ⟨getElem?_modify_fresh _ _ _ hlt, getElem?_modify_data _ _ h⟩,
      ⟨getElem?_modify_fresh _ _ _ hlt, getElem?_modify_data _ _ h⟩,
      ⟨getElem?_modify_fresh _ _ _ hlt, getElem?_modify_data _ _ h⟩⟩

/-- Witness for C9: committing the array of the sample store that holds the records. -/
theorem setSingleAtom_distinct_copy_witness :
    ∃ σ₁, setSingleAtom sampleStore 0 = some σ₁ ∧ σ₁.state.singleAtom ≠ 0 ∧
      ∀ (x : Atom) (i : Nat),
        (readSingleAtom (arrayPush σ₁ 0 x) = some sampleAtoms ∧
          (arrayPush σ₁ 0 x).heap[0]? = some (sampleAtoms ++ [x])) ∧
        (readSingleAtom (arrayPop σ₁ 0) = some sampleAtoms ∧
          (arrayPop σ₁ 0).heap[0]? = some sampleAtoms.dropLast) ∧
        (readSingleAtom (arrayRemoveAt σ₁ 0 i) = some sampleAtoms ∧
          (arrayRemoveAt σ₁ 0 i).heap[0]? = some (sampleAtoms.eraseIdx i)) ∧
        (readSingleAtom (arrayReplace σ₁ 0 i x) = some sampleAtoms ∧
          (arrayReplace σ₁ 0 i x).heap[0]? = some (sampleAtoms.set i x)) :=
  setSingleAtom_distinct_copy sampleStore 0 sampleAtoms rfl

theorem getElem?_append_append_of_lt (heap : Heap) (xa xb : List Atom) {r : Ref}
    (h : r < heap.length) : (heap ++ [xa] ++ [xb])[r]? = (heap ++ [xb])[r]? := by
  rw [List.append_assoc, List.getElem?_append_left h, List.getElem?_append_left h]

theorem getElem?_append_append_last (heap : Heap) (xa xb : List Atom) :
    (heap ++ [xa] ++ [xb])[(heap ++ [xa]).length]? = some xb :=
  List.getElem?_concat_length _ _

theorem view_setSingleAtom_twice {σ : Store} {a b : Ref} {xa xb : List Atom}
    (hwf : WellFormed σ) (ha : σ.heap[a]? = some xa) (hb : σ.heap[b]? = some xb) :
    ∃ σ₁ σ₂ σ₃, setSingleAtom σ a = some σ₁ ∧ setSingleAtom σ₁ b = some σ₂ ∧
      setSingleAtom σ b = some σ₃ ∧ view σ₂ = view σ₃ ∧ readSingleAtom σ₂ = some xb := by
  have hb₁ : (Store.mk (σ.heap ++ [xa]) ⟨σ.heap.length, σ.state.subAtom⟩).heap[b]? =
      some xb := getElem?_append_of_some _ hb
  refine ⟨_, _, _, setSingleAtom_eq ha, setSingleAtom_eq hb₁, setSingleAtom_eq hb, ?_, ?_⟩
  · simp only [view, readSingleAtom, readSubAtom]
    rw [getElem?_append_append_last, getElem?_append_append_of_lt _ _ _ hwf.2,
      List.getElem?_concat_length]
  · exact getElem?_append_append_last _ _ _

theorem view_setSubAtom_twice {σ : Store} {a b : Ref} {xa xb : List Atom}
    (hwf : WellFormed σ) (ha : σ.heap[a]? = some xa) (hb : σ.heap[b]? = some xb) :
    ∃ σ₁ σ₂ σ₃, setSubAtom σ a = some σ₁ ∧ setSubAtom σ₁ b = some σ₂ ∧
      setSubAtom σ b = some σ₃ ∧ view σ₂ = view σ₃ ∧ readSubAtom σ₂ = some xb := by
  have hb₁ : (Store.mk (σ.heap ++ [xa]) ⟨σ.state.singleAtom, σ.heap.length⟩).heap[b]? =
      some xb := getElem?_append_of_some _ hb
  refine ⟨_, _, _, setSubAtom_eq ha, setSubAtom_eq hb₁, setSubAtom_eq hb, ?_, ?_⟩
  · simp only [view, readSingleAtom, readSubAtom]
    rw [getElem?_append_append_last, getElem?_append_append_of_lt _ _ _ hwf.1,
      List.getElem?_concat_length]
  · exact getElem?_append_append_last _ _ _

/-- C10: the sequences are replaced wholesale and the last commit wins.  For a state
whose references are valid and arrays `a`, `b`: `setSingleAtom(a)` followed by
`setSingleAtom(b)` leaves the same observable state (the contents of `singleAtom` and of
`subAtom`) as `setSingleAtom(b)` alone, and `singleAtom` then holds exactly the elements
of `b`; the same holds for `setSubAtom`; and committing the same array twice leaves the
same observable state as committing it once. -/
theorem mutations_last_commit_wins (σ : Store) (a b : Ref) (xa xb : List Atom)
    (hwf : WellFormed σ) (ha : σ.heap[a]? = some xa) (hb : σ.heap[b]? = some xb) :
    (∃ σ₁ σ₂ σ₃, setSingleAtom σ a = some σ₁ ∧ setSingleAtom σ₁ b = some σ₂ ∧
      setSingleAtom σ b = some σ₃ ∧ view σ₂ = view σ₃ ∧ readSingleAtom σ₂ = some xb) ∧
    (∃ σ₁ σ₂ σ₃, setSubAtom σ a = some σ₁ ∧ setSubAtom σ₁ b = some σ₂ ∧
      setSubAtom σ b = some σ₃ ∧ view σ₂ = view σ₃ ∧ readSubAtom σ₂ = some xb) ∧
    (∃ σ₁ σ₂, setSingleAtom σ a = some σ₁ ∧ setSingleAtom σ₁ a = some σ₂ ∧
      view σ₂ = view σ₁) ∧
    (∃ σ₁ σ₂, setSubAtom σ a = some σ₁ ∧ setSubAtom σ₁ a = some σ₂ ∧
      view σ₂ = view σ₁) := by
  refine ⟨view_setSingleAtom_twice hwf ha hb, view_setSubAtom_twice hwf ha hb, ?_, ?_⟩
  · obtain ⟨σ₁, σ₂, σ₃, h₁, h₂, h₃, hv, _⟩ := view_setSingleAtom_twice hwf ha ha
    have h₁₃ : σ₃ = σ₁ := Option.some.inj (h₃.symm.trans h₁)
    exact ⟨σ₁, σ₂, h₁, h₂, h₁₃ ▸ hv⟩
  · obtain ⟨σ₁, σ₂, σ₃, h₁, h₂, h₃, hv, _⟩ := view_setSubAtom_twice hwf ha ha
    have h₁₃ : σ₃ = σ₁ := Option.some.inj (h₃.symm.trans h₁)
    exact ⟨σ₁, σ₂, h₁, h₂, h₁₃ ▸ hv⟩

/-- Witness for C10: on the second sample store, committing its first array and then its
third. -/
theorem mutations_last_commit_wins_witness :
    WellFormed sampleStore₂ ∧
    (∃ σ₁ σ₂ σ₃, setSingleAtom sampleStore₂ 0 = some σ₁ ∧ setSingleAtom σ₁ 2 = some σ₂ ∧
      setSingleAtom sampleStore₂ 2 = some σ₃ ∧ view σ₂ = view σ₃ ∧
      readSingleAtom σ₂ = some sampleAtoms) ∧
    (∃ σ₁ σ₂ σ₃, setSubAtom sampleStore₂ 0 = some σ₁ ∧ setSubAtom σ₁ 2 = some σ₂ ∧
      setSubAtom sampleStore₂ 2 = some σ₃ ∧ view σ₂ = view σ₃ ∧
      readSubAtom σ₂ = some sampleAtoms) ∧
    (∃ σ₁ σ₂, setSingleAtom sampleStore₂ 0 = some σ₁ ∧ setSingleAtom σ₁ 0 = some σ₂ ∧
      view σ₂ = view σ₁) ∧
    (∃ σ₁ σ₂, setSubAtom sampleStore₂ 0 = some σ₁ ∧ setSubAtom σ₁ 0 = some σ₂ ∧
      view σ₂ = view σ₁) :=
  ⟨by decide, mutations_last_commit_wins sampleStore₂ 0 2 _ sampleAtoms (by decide) rfl rfl⟩

/-! ## Actions -/

/-- C11: `loadSingleAtomList` makes one API call, `getSingleAtomList` with no arguments;
when that call is fulfilled with a response `r` the action is fulfilled with
`r.data.objects`, and when it is rejected with an error `e` the action is rejected with
the same `e`. -/
theorem loadSingleAtomList_contract (context : ActionContext) (api : Api) :
    (loadSingleAtomList context api).calls = [ApiCall.getSingleAtomList []] ∧
    (∀ r, api.getSingleAtomList [] = Promise.resolved r →
      (loadSingleAtomList context api).result = Promise.resolved r.data.objects) ∧
    (∀ e, api.getSingleAtomList [] = Promise.rejected e →
      (loadSingleAtomList context api).result = Promise.rejected e) := by
  refine ⟨rfl, ?_, ?_⟩
  · intro r hr
    simp only [loadSingleAtomList, hr, Promise.thenDo]
  · intro e he
    simp only [loadSingleAtomList, he, Promise.thenDo]

/-- Witness for C11: a fulfilled call and a rejected call. -/
theorem loadSingleAtomList_contract_witness :
    (loadSingleAtomList sampleContext sampleApi).result =
        Promise.resolved (some sampleAtoms) ∧
      (loadSingleAtomList sampleContext failingApi).result =
        Promise.rejected sampleError :=
  ⟨(loadSingleAtomList_contract sampleContext sampleApi).2.1 sampleResponse rfl,
    (loadSingleAtomList_contract sampleContext failingApi).2.2 sampleError rfl⟩

/-- C12: `loadSubflowList(data)` makes one API call, `getSubAtomList` with exactly `data`
as its argument; when that call is fulfilled with a response `r` the action is fulfilled
with `r.data.objects`, and when it is rejected with an error `e` the action is rejected
with the same `e`. -/
theorem loadSubflowList_contract (context : ActionContext) (api : Api)
    (data : Params) :
    (loadSubflowList context api data).calls = [ApiCall.getSubAtomList [data]] ∧
    (∀ r, api.getSubAtomList [data] = Promise.resolved r →
      (loadSubflowList context api data).result = Promise.resolved r.data.objects) ∧
    (∀ e, api.getSubAtomList [data] = Promise.rejected e →
      (loadSubflowList context api data).result = Promise.rejected e) := by
  refine ⟨rfl, ?_, ?_⟩
  · intro r hr
    simp only [loadSubflowList, hr, Promise.thenDo]
  · intro e he
    simp only [loadSubflowList, he, Promise.thenDo]

/-- Witness for C12: a fulfilled call and a rejected call. -/
theorem loadSubflowList_contract_witness :
    (loadSubflowList sampleContext sampleApi sampleParams).result =
        Promise.resolved (some sampleAtoms) ∧
      (loadSubflowList sampleContext failingApi sampleParams).result =
        Promise.rejected sampleError :=
  ⟨(loadSubflowList_contract sampleContext sampleApi sampleParams).2.1
      sampleResponse rfl,
    (loadSubflowList_contract sampleContext failingApi sampleParams).2.2
      sampleError rfl⟩

/-- C13: `queryAtomData(data)` makes one API call, `queryAtom` with exactly `data`; when
that call is fulfilled with a response `r` the action is fulfilled with the whole payload
`r.data`, and when it is rejected with an error `e` the action is rejected with the same
`e`. -/
theorem queryAtomData_contract (context : ActionContext) (api : Api)
    (data : Params) :
    (queryAtomData context api data).calls = [ApiCall.queryAtom [data]] ∧
    (∀ r, api.queryAtom [data] = Promise.resolved r →
      (queryAtomData context api data).result = Promise.resolved r.data) ∧
    (∀ e, api.queryAtom [data] = Promise.rejected e →
      (queryAtomData context api data).result = Promise.rejected e) := by
  refine ⟨rfl, ?_, ?_⟩
  · intro r hr
    simp only [queryAtomData, hr, Promise.thenDo]
  · intro e he
    simp only [queryAtomData, he, Promise.thenDo]

/-- Witness for C13: a fulfilled call, whose payload has more than `objects`, and a
rejected call. -/
theorem queryAtomData_contract_witness :
    (queryAtomData sampleContext sampleApi sampleParams).result =
        Promise.resolved { objects := some sampleAtoms, extra := [("count", .num 4)] } ∧
      (queryAtomData sampleContext failingApi sampleParams).result =
        Promise.rejected sampleError :=
  ⟨(queryAtomData_contract sampleContext sampleApi sampleParams).2.1
      sampleResponse rfl,
    (queryAtomData_contract sampleContext failingApi sampleParams).2.2
      sampleError rfl⟩

/-- C14: none of the three actions commits a mutation: whatever the context, the API
client (so whatever the outcome of the call) and the argument, the action commits
nothing, and for every state the store after the action is the store before it, so
`singleAtom` and `subAtom` hold what they held. -/
theorem actions_commit_nothing (context : ActionContext) (api : Api) (σ : Store)
    (data : Params) :
    ((loadSingleAtomList context api).commits = [] ∧
      (loadSubflowList context api data).commits = [] ∧
      (queryAtomData context api data).commits = []) ∧
    ((loadSingleAtomList context api).storeAfter context σ = some σ ∧
      (loadSubflowList context api data).storeAfter context σ = some σ ∧
      (queryAtomData context api data).storeAfter context σ = some σ) :=
  ⟨⟨rfl, rfl, rfl⟩, ⟨rfl, rfl, rfl⟩⟩

/-! ## Each mutation changes its own sequence only -/

theorem getElem?_append_append_first (heap : Heap) (xa xb : List Atom) :
    (heap ++ [xa] ++ [xb])[heap.length]? = some xa := by
  rw [List.getElem?_append_left (by simp)]
  exact List.getElem?_concat_length _ _

theorem getElem?_concat_of_lt (heap : Heap) (xs : List Atom) {r : Ref}
    (h : r < heap.length) : (heap ++ [xs])[r]? = heap[r]? :=
  List.getElem?_append_left h

theorem singleAtomGrouped_congr {σ₁ σ₂ : Store}
    (h : readSingleAtom σ₁ = readSingleAtom σ₂) :
    singleAtomGrouped σ₁ = singleAtomGrouped σ₂ := by
  unfold readSingleAtom at h
  simp only [singleAtomGrouped, h]

theorem view_set_commute {σ : Store} {a b : Ref} {xa xb : List Atom}
    (ha : σ.heap[a]? = some xa) (hb : σ.heap[b]? = some xb) :
    ∃ σ₁ σ₁₂ σ₂ σ₂₁, setSingleAtom σ a = some σ₁ ∧ setSubAtom σ₁ b = some σ₁₂ ∧
      setSubAtom σ b = some σ₂ ∧ setSingleAtom σ₂ a = some σ₂₁ ∧
      view σ₁₂ = view σ₂₁ ∧ view σ₁₂ = (some xa, some xb) := by
  have hb₁ : (Store.mk (σ.heap ++ [xa]) ⟨σ.heap.length, σ.state.subAtom⟩).heap[b]? =
      some xb := getElem?_append_of_some _ hb
  have ha₂ : (Store.mk (σ.heap ++ [xb]) ⟨σ.state.singleAtom, σ.heap.length⟩).heap[a]? =
      some xa := getElem?_append_of_some _ ha
  refine ⟨_, _, _, _, setSingleAtom_eq ha, setSubAtom_eq hb₁, setSubAtom_eq hb,
    setSingleAtom_eq ha₂, ?_, ?_⟩
  · simp only [view, readSingleAtom, readSubAtom]
    rw [getElem?_append_append_first, getElem?_append_append_last,
      getElem?_append_append_first, getElem?_append_append_last]
  · simp only [view, readSingleAtom, readSubAtom]
    rw [getElem?_append_append_first, getElem?_append_append_last]

/-- C15: each mutation changes only its own sequence.  For a state whose references are
valid and arrays `a`, `b`: `setSingleAtom(a)` leaves the contents of `subAtom` unchanged;
`setSubAtom(b)` leaves the contents of `singleAtom`, and so the result of
`singleAtomGrouped`, unchanged; and `setSingleAtom(a)` then `setSubAtom(b)` leaves the
same observable state as `setSubAtom(b)` then `setSingleAtom(a)`. -/
theorem mutations_frame_and_commute (σ : Store) (a b : Ref) (xa xb : List Atom)
    (hwf : WellFormed σ) (ha : σ.heap[a]? = some xa) (hb : σ.heap[b]? = some xb) :
    (∃ σ₁, setSingleAtom σ a = some σ₁ ∧ readSubAtom σ₁ = readSubAtom σ) ∧
    (∃ σ₂, setSubAtom σ b = some σ₂ ∧ readSingleAtom σ₂ = readSingleAtom σ ∧
      singleAtomGrouped σ₂ = singleAtomGrouped σ) ∧
    (∃ σ₁ σ₁₂ σ₂ σ₂₁, setSingleAtom σ a = some σ₁ ∧ setSubAtom σ₁ b = some σ₁₂ ∧
      setSubAtom σ b = some σ₂ ∧ setSingleAtom σ₂ a = some σ₂₁ ∧
      view σ₁₂ = view σ₂₁ ∧ view σ₁₂ = (some xa, some xb)) := by
  refine ⟨⟨_, setSingleAtom_eq ha, ?_⟩, ⟨_, setSubAtom_eq hb, ?_, ?_⟩,
    view_set_commute ha hb⟩
  · exact getElem?_concat_of_lt _ _ hwf.2
  · exact getElem?_concat_of_lt _ _ hwf.1
  · exact singleAtomGrouped_congr (getElem?_concat_of_lt _ _ hwf.1)

/-- Witness for C15: on the second sample store, with its first and third arrays. -/
theorem mutations_frame_and_commute_witness :
    WellFormed sampleStore₂ ∧
    (∃ σ₁, setSingleAtom sampleStore₂ 0 = some σ₁ ∧
      readSubAtom σ₁ = readSubAtom sampleStore₂) ∧
    (∃ σ₂, setSubAtom sampleStore₂ 2 = some σ₂ ∧
      readSingleAtom σ₂ = readSingleAtom sampleStore₂ ∧
      singleAtomGrouped σ₂ = singleAtomGrouped sampleStore₂) ∧
    (∃ σ₁ σ₁₂ σ₂ σ₂₁, setSingleAtom sampleStore₂ 0 = some σ₁ ∧
      setSubAtom σ₁ 2 = some σ₁₂ ∧ setSubAtom sampleStore₂ 2 = some σ₂ ∧
      setSingleAtom σ₂ 0 = some σ₂₁ ∧ view σ₁₂ = view σ₂₁ ∧
      view σ₁₂ = (sampleStore₂.heap[0]?, some sampleAtoms)) :=
  ⟨by decide, mutations_frame_and_commute sampleStore₂ 0 2 _ sampleAtoms (by decide) rfl rfl⟩

/-! ## Lemmas on sequences made of one block per group name -/

theorem allRecords_specGrouped (s : List Atom) :
    allRecords (specGrouped s) =
      (firstSeen (s.map (fun r => r.group_name))).flatMap (specList s) := by
  unfold allRecords specGrouped
  rw [List.flatMap_map]
  rfl

theorem filter_flatMap_of_not_mem {L : List JsVal} {B : JsVal → List Atom} {n : JsVal}
    (hB : ∀ m ∈ L, ∀ x ∈ B m, x.group_name = m) (hn : n ∉ L) :
    (L.flatMap B).filter (fun r => decide (r.group_name = n)) = [] := by
  rw [List.filter_eq_nil_iff]
  intro x hx hp
  obtain ⟨m, hm, hxm⟩ := List.mem_flatMap.mp hx
  have h₁ : x.group_name = m := hB m hm x hxm
  have h₂ : x.group_name = n := by simpa using hp
  exact hn (h₂ ▸ h₁ ▸ hm)

theorem filter_flatMap_of_mem {L : List JsVal} {B : JsVal → List Atom} {n : JsVal}
    (hB : ∀ m ∈ L, ∀ x ∈ B m, x.group_name = m) (hnd : L.Nodup) (hn : n ∈ L) :
    (L.flatMap B).filter (fun r => decide (r.group_name = n)) = B n := by
  induction L with
  | nil => simp at hn
  | cons m t ih =>
    have hnd' := List.nodup_cons.mp hnd
    have hBt : ∀ k ∈ t, ∀ x ∈ B k, x.group_name = k := fun k hk =>
      hB k (List.mem_cons_of_mem _ hk)
    rw [List.flatMap_cons, List.filter_append]
    by_cases hmn : m = n
    · subst hmn
      have h₁ : (B m).filter (fun r => decide (r.group_name = m)) = B m := by
        rw [List.filter_eq_self]
        intro x hx
        simpa using hB m (List.mem_cons_self _ _) x hx
      rw [h₁, filter_flatMap_of_not_mem hBt hnd'.1, List.append_nil]
    · have hnt : n ∈ t := by
        rcases List.mem_cons.mp hn with h | h
        · exact absurd h.symm hmn
        · exact h
      have h₁ : (B m).filter (fun r => decide (r.group_name = n)) = [] := by
        rw [List.filter_eq_nil_iff]
        intro x hx hp
        have h₂ : x.group_name = n := by simpa using hp
        exact hmn ((hB m (List.mem_cons_self _ _) x hx).symm.trans h₂)
      rw [h₁, List.nil_append, ih hBt hnd'.2 hnt]

theorem firstSeen_block {xs : List JsVal} {n : JsVal} (hne : xs ≠ [])
    (h : ∀ y ∈ xs, y = n) : firstSeen xs = [n] := by
  induction xs with
  | nil => exact absurd rfl hne
  | cons a t ih =>
    have ha : a = n := h a (List.mem_cons_self _ _)
    subst ha
    simp only [firstSeen]
    congr 1
    rw [List.filter_eq_nil_iff]
    intro y hy hp
    have hy' : y ∈ t := (mem_firstSeen _ _).mp hy
    have : ¬ y = a := by simpa using hp
    exact this (h y (List.mem_cons_of_mem _ hy'))

theorem firstSeen_append (xs ys : List JsVal) :
    firstSeen (xs ++ ys) =
      firstSeen xs ++ (firstSeen ys).filter (fun y => decide (y ∉ xs)) := by
  induction xs with
  | nil => simp [firstSeen]
  | cons a t ih =>
    simp only [List.cons_append, firstSeen, List.append_eq, ih, List.filter_append,
      List.filter_filter]
    congr 2
    apply List.filter_congr
    intro y _
    by_cases hya : y = a <;> simp [hya]

theorem firstSeen_flatMap {L : List JsVal} {B : JsVal → List Atom}
    (hB : ∀ m ∈ L, ∀ x ∈ B m, x.group_name = m) (hne : ∀ m ∈ L, B m ≠ [])
    (hnd : L.Nodup) :
    firstSeen ((L.flatMap B).map (fun r => r.group_name)) = L := by
  induction L with
  | nil => rfl
  | cons m t ih =>
    have hnd' := List.nodup_cons.mp hnd
    have hBt : ∀ k ∈ t, ∀ x ∈ B k, x.group_name = k := fun k hk =>
      hB k (List.mem_cons_of_mem _ hk)
    have hnet : ∀ k ∈ t, B k ≠ [] := fun k hk => hne k (List.mem_cons_of_mem _ hk)
    have hall : ∀ y ∈ (B m).map (fun r => r.group_name), y = m := by
      intro y hy
      obtain ⟨x, hx, rfl⟩ := List.mem_map.mp hy
      exact hB m (List.mem_cons_self _ _) x hx
    have hblock : firstSeen ((B m).map (fun r => r.group_name)) = [m] := by
      apply firstSeen_block _ hall
      intro h
      exact hne m (List.mem_cons_self _ _) (List.map_eq_nil_iff.mp h)
    rw [List.flatMap_cons, List.map_append, firstSeen_append, hblock, ih hBt hnet hnd'.2]
    have hfilter : t.filter (fun y => decide (y ∉ (B m).map (fun r => r.group_name))) = t := by
      rw [List.filter_eq_self]
      intro y hy
      have : y ∉ (B m).map (fun r => r.group_name) := fun hmem =>
        hnd'.1 (hall y hmem ▸ hy)
      simpa using this
    rw [hfilter]
    rfl

theorem keepFirstPerCode_of_nodup {l : List Atom}
    (h : (l.map (fun m => m.code)).Nodup) : keepFirstPerCode l = l := by
  induction l with
  | nil => rfl
  | cons r rs ih =>
    have h' := List.nodup_cons.mp h
    simp only [keepFirstPerCode, ih h'.2]
    congr 1
    rw [List.filter_eq_self]
    intro m hm
    have : ¬ m.code = r.code := fun e => h'.1 (List.mem_map.mpr ⟨m, hm, e⟩)
    simpa using this

theorem find?_eq_head?_filter (p : Atom → Bool) (l : List Atom) :
    l.find? p = (l.filter p).head? := by
  induction l with
  | nil => rfl
  | cons a t ih =>
    by_cases h : p a = true
    · rw [List.find?_cons_of_pos _ h, List.filter_cons_of_pos h]
      rfl
    · rw [List.find?_cons_of_neg _ h, List.filter_cons_of_neg h]
      exact ih

theorem head?_keepFirstPerCode (l : List Atom) : (keepFirstPerCode l).head? = l.head? := by
  cases l <;> rfl

theorem firstOfGroup_eq_head?_specList (s : List Atom) (n : JsVal) :
    firstOfGroup s n = (specList s n).head? := by
  unfold firstOfGroup specList
  rw [head?_keepFirstPerCode, find?_eq_head?_filter]

theorem specList_ne_nil {s : List Atom} {n : JsVal}
    (h : n ∈ s.map (fun r => r.group_name)) : specList s n ≠ [] := by
  obtain ⟨r, hr, rfl⟩ := List.mem_map.mp h
  obtain ⟨x, hx, _⟩ := code_mem_specList hr
  exact List.ne_nil_of_mem hx

/-! ## Regrouping the grouped view -/

theorem specList_allRecords {s : List Atom} {n : JsVal}
    (hn : n ∈ firstSeen (s.map (fun r => r.group_name))) :
    specList (allRecords (specGrouped s)) n = specList s n := by
  have hfilter : (allRecords (specGrouped s)).filter (fun r => decide (r.group_name = n)) =
      specList s n := by
    rw [allRecords_specGrouped]
    exact filter_flatMap_of_mem (fun m _ x hx => (mem_specList hx).2) (firstSeen_nodup _) hn
  have hkeep : keepFirstPerCode (specList s n) = specList s n :=
    keepFirstPerCode_of_nodup (keepFirstPerCode_codes_nodup _)
  calc specList (allRecords (specGrouped s)) n
      = keepFirstPerCode
          ((allRecords (specGrouped s)).filter (fun r => decide (r.group_name = n))) := rfl
    _ = keepFirstPerCode (specList s n) := by rw [hfilter]
    _ = specList s n := hkeep

theorem specGroup_allRecords {s : List Atom} {n : JsVal}
    (hn : n ∈ firstSeen (s.map (fun r => r.group_name))) :
    specGroup (allRecords (specGrouped s)) n = specGroup s n := by
  have hlist := specList_allRecords hn
  have hfirst : firstOfGroup (allRecords (specGrouped s)) n = firstOfGroup s n := by
    rw [firstOfGroup_eq_head?_specList, firstOfGroup_eq_head?_specList, hlist]
  simp only [specGroup, hlist, hfirst]

theorem specGrouped_allRecords (s : List Atom) :
    specGrouped (allRecords (specGrouped s)) = specGrouped s := by
  have hnames : firstSeen ((allRecords (specGrouped s)).map (fun r => r.group_name)) =
      firstSeen (s.map (fun r => r.group_name)) := by
    rw [allRecords_specGrouped]
    exact firstSeen_flatMap (fun m _ x hx => (mem_specList hx).2)
      (fun m hm => specList_ne_nil ((mem_firstSeen _ _).mp hm)) (firstSeen_nodup _)
  calc specGrouped (allRecords (specGrouped s))
      = (firstSeen ((allRecords (specGrouped s)).map (fun r => r.group_name))).map
          (specGroup (allRecords (specGrouped s))) := rfl
    _ = (firstSeen (s.map (fun r => r.group_name))).map
          (specGroup (allRecords (specGrouped s))) := by rw [hnames]
    _ = (firstSeen (s.map (fun r => r.group_name))).map (specGroup s) :=
        List.map_congr_left (fun n hn => specGroup_allRecords hn)
    _ = specGrouped s := rfl

/-- C16: regrouping the grouped view is a fixed point: when `f` is the concatenation, in
output order, of the lists of the groups returned by `singleAtomGrouped` on `s`, then
`singleAtomGrouped` on `f` returns the same groups in the same order, with the same
`type`, `group_name`, `group_icon` and `list`. -/
theorem singleAtomGrouped_regroup_fixed_point (σ : Store) (s : List Atom)
    (h : readSingleAtom σ = some s) :
    ∃ gs, singleAtomGrouped σ = some gs ∧
      ∀ σ₂ : Store, readSingleAtom σ₂ = some (allRecords gs) →
        singleAtomGrouped σ₂ = some gs := by
  refine ⟨specGrouped s, singleAtomGrouped_eq h, ?_⟩
  intro σ₂ h₂
  rw [singleAtomGrouped_eq h₂, specGrouped_allRecords]

/-- Witness for C16 on the sample store. -/
theorem singleAtomGrouped_regroup_fixed_point_witness :
    ∃ gs, singleAtomGrouped sampleStore = some gs ∧
      ∀ σ₂ : Store, readSingleAtom σ₂ = some (allRecords gs) →
        singleAtomGrouped σ₂ = some gs :=
  singleAtomGrouped_regroup_fixed_point sampleStore sampleAtoms rfl

/-! ## Sizes, and the records kept -/

theorem firstSeen_length_le (xs : List JsVal) : (firstSeen xs).length ≤ xs.length := by
  induction xs with
  | nil => exact Nat.le_refl _
  | cons a t ih =>
    simp only [firstSeen, List.length_cons]
    exact Nat.succ_le_succ (Nat.le_trans (List.length_filter_le _ _) ih)

theorem flatMap_filter_perm (s : List Atom) {L : List JsVal} (hnd : L.Nodup) :
    (L.flatMap (fun n => s.filter (fun r => decide (r.group_name = n)))).Perm
      (s.filter (fun r => decide (r.group_name ∈ L))) := by
  induction L with
  | nil => simp
  | cons m t ih =>
    have hnd' := List.nodup_cons.mp hnd
    have h₁ : (s.filter (fun r => decide (r.group_name ∈ m :: t))).filter
        (fun r => decide (r.group_name = m)) =
        s.filter (fun r => decide (r.group_name = m)) := by
      rw [List.filter_filter]
      apply List.filter_congr
      intro x _
      by_cases hx : x.group_name = m <;> simp [hx]
    have h₂ : (s.filter (fun r => decide (r.group_name ∈ m :: t))).filter
        (fun r => !decide (r.group_name = m)) =
        s.filter (fun r => decide (r.group_name ∈ t)) := by
      rw [List.filter_filter]
      apply List.filter_congr
      intro x _
      by_cases hx : x.group_name = m
      · have : x.group_name ∉ t := fun hm => hnd'.1 (hx ▸ hm)
        simp [hx, hnd'.1]
      · simp [hx]
    have hsplit := List.filter_append_perm (fun r : Atom => decide (r.group_name = m))
      (s.filter (fun r => decide (r.group_name ∈ m :: t)))
    rw [h₁, h₂] at hsplit
    rw [List.flatMap_cons]
    exact ((ih hnd'.2).append_left _).trans hsplit

theorem flatMap_filter_firstSeen_perm (s : List Atom) :
    ((firstSeen (s.map (fun r => r.group_name))).flatMap
      (fun n => s.filter (fun r => decide (r.group_name = n)))).Perm s := by
  have h := flatMap_filter_perm s (firstSeen_nodup (s.map (fun r => r.group_name)))
  have hall : s.filter (fun r => decide (r.group_name ∈
      firstSeen (s.map (fun r => r.group_name)))) = s := by
    rw [List.filter_eq_self]
    intro x hx
    have : x.group_name ∈ firstSeen (s.map (fun r => r.group_name)) :=
      (mem_firstSeen _ _).mpr (List.mem_map.mpr ⟨x, hx, rfl⟩)
    simpa using this
  rw [hall] at h
  exact h

theorem flatMap_sublist_flatMap {B C : JsVal → List Atom} (L : List JsVal)
    (h : ∀ n, (B n).Sublist (C n)) : (L.flatMap B).Sublist (L.flatMap C) := by
  induction L with
  | nil => exact List.Sublist.refl _
  | cons m t ih =>
    rw [List.flatMap_cons, List.flatMap_cons]
    exact (h m).append ih

theorem allRecords_length_le (s : List Atom) :
    (allRecords (specGrouped s)).length ≤ s.length := by
  rw [allRecords_specGrouped, ← (flatMap_filter_firstSeen_perm s).length_eq]
  exact (flatMap_sublist_flatMap _ (fun n => keepFirstPerCode_sublist _)).length_le

theorem sum_list_lengths (gs : List Group) :
    (gs.map (fun g => g.list.length)).sum = (allRecords gs).length := by
  induction gs with
  | nil => rfl
  | cons g t ih =>
    simp only [allRecords, List.map_cons, List.sum_cons, List.flatMap_cons,
      List.length_append] at ih ⊢
    rw [ih]

theorem specList_eq_filter_of_nodup {s : List Atom}
    (h : (s.map (fun r => (r.group_name, r.code))).Nodup) (n : JsVal) :
    specList s n = s.filter (fun r => decide (r.group_name = n)) := by
  apply keepFirstPerCode_of_nodup
  have hsub : ((s.filter (fun r => decide (r.group_name = n))).map
      (fun r => (r.group_name, r.code))).Nodup :=
    h.sublist ((List.filter_sublist _).map _)
  have hmap : (s.filter (fun r => decide (r.group_name = n))).map (fun m => m.code) =
      ((s.filter (fun r => decide (r.group_name = n))).map
        (fun r => (r.group_name, r.code))).map Prod.snd := by
    rw [List.map_map]
    rfl
  rw [hmap]
  apply List.Nodup.map_on _ hsub
  intro x hx y hy hxy
  obtain ⟨a, ha, rfl⟩ := List.mem_map.mp hx
  obtain ⟨b, hb, rfl⟩ := List.mem_map.mp hy
  have han : a.group_name = n := by simpa using (List.mem_filter.mp ha).2
  have hbn : b.group_name = n := by simpa using (List.mem_filter.mp hb).2
  have hcode : a.code = b.code := hxy
  simp only [han, hbn, hcode]

theorem allRecords_perm_of_nodup {s : List Atom}
    (h : (s.map (fun r => (r.group_name, r.code))).Nodup) :
    (allRecords (specGrouped s)).Perm s := by
  have heq : (firstSeen (s.map (fun r => r.group_name))).flatMap (specList s) =
      (firstSeen (s.map (fun r => r.group_name))).flatMap
        (fun n => s.filter (fun r => decide (r.group_name = n))) := by
    have hfun : specList s = fun n => s.filter (fun r => decide (r.group_name = n)) :=
      funext (specList_eq_filter_of_nodup h)
    rw [hfun]
  rw [allRecords_specGrouped, heq]
  exact flatMap_filter_firstSeen_perm s

theorem mem_specList_of_firstWithKey {s : List Atom} {r : Atom}
    (h : firstWithKey s r = some r) : r ∈ specList s r.group_name := by
  unfold firstWithKey at h
  obtain ⟨_, as, bs, hs, hfirst⟩ := List.find?_eq_some.mp h
  rw [hs]
  apply mem_specList_of_first
  intro m hm hkey
  have := hfirst m hm
  simp [hkey.1, hkey.2] at this

/-- C17: every group `g` returned by `singleAtomGrouped` has a non-empty list, every
record of `g.list` is a record of `singleAtom` and has `group_name` equal to `g.type`;
the number of groups and the total number of records over all lists are each at most the
length of `singleAtom`. -/
theorem singleAtomGrouped_invariants (σ : Store) (s : List Atom)
    (h : readSingleAtom σ = some s) :
    ∃ gs, singleAtomGrouped σ = some gs ∧
      (∀ g ∈ gs, g.list ≠ [] ∧ ∀ x ∈ g.list, x ∈ s ∧ x.group_name = g.type) ∧
      gs.length ≤ s.length ∧
      (gs.map (fun g => g.list.length)).sum ≤ s.length := by
  refine ⟨specGrouped s, singleAtomGrouped_eq h, ?_, ?_, ?_⟩
  · intro g hg
    obtain ⟨n, hn, rfl⟩ := mem_specGrouped hg
    exact ⟨specList_ne_nil hn, fun x hx => mem_specList hx⟩
  · have hlen : (specGrouped s).length =
        (firstSeen (s.map (fun r => r.group_name))).length := List.length_map _ _
    rw [hlen]
    exact Nat.le_trans (firstSeen_length_le _) (Nat.le_of_eq (List.length_map _ _))
  · rw [sum_list_lengths]
    exact allRecords_length_le s

/-- Witness for C17 on the sample store. -/
theorem singleAtomGrouped_invariants_witness :
    ∃ gs, singleAtomGrouped sampleStore = some gs ∧
      (∀ g ∈ gs, g.list ≠ [] ∧ ∀ x ∈ g.list, x ∈ sampleAtoms ∧ x.group_name = g.type) ∧
      gs.length ≤ sampleAtoms.length ∧
      (gs.map (fun g => g.list.length)).sum ≤ sampleAtoms.length :=
  singleAtomGrouped_invariants sampleStore sampleAtoms rfl

/-! ## Duplicate suppression is scoped to one group -/

/-- C18, as stated, fails: `duplicateSecond` and `duplicateOther` are records of
`singleAtom` with the same code and different group names, and `duplicateSecond` is in no
list of the result, because `duplicateFirst`, of its own group, precedes it with the same
code. -/
theorem singleAtomGrouped_cross_group_counterexample :
    readSingleAtom duplicateStore = some duplicateAtoms ∧
      duplicateSecond ∈ duplicateAtoms ∧ duplicateOther ∈ duplicateAtoms ∧
      duplicateSecond.code = duplicateOther.code ∧
      duplicateSecond.group_name ≠ duplicateOther.group_name ∧
      singleAtomGrouped duplicateStore = some
        [ { type := .str "g1", group_name := .str "g1", group_icon := .str "icon-1",
            list := [duplicateFirst] },
          { type := .str "g2", group_name := .str "g2", group_icon := .str "icon-2",
            list := [duplicateOther] } ] ∧
      ¬ ∃ gs, singleAtomGrouped duplicateStore = some gs ∧
          ∃ g ∈ gs, duplicateSecond ∈ g.list := by
  have hev : singleAtomGrouped duplicateStore = some
      [ { type := .str "g1", group_name := .str "g1", group_icon := .str "icon-1",
          list := [duplicateFirst] },
        { type := .str "g2", group_name := .str "g2", group_icon := .str "icon-2",
          list := [duplicateOther] } ] := by decide
  refine ⟨rfl, by decide, by decide, rfl, by decide, hev, ?_⟩
  rintro ⟨gs, hgs, g, hg, hr⟩
  rw [hev] at hgs
  cases hgs
  simp only [List.mem_cons, List.mem_singleton, List.not_mem_nil, or_false] at hg
  rcases hg with rfl | rfl
  · exact absurd hr (by decide)
  · exact absurd hr (by decide)

/-- C18, amended: duplicate suppression is scoped to a single group.  Two records of
`singleAtom` with the same code and different group names, each the first record of
`singleAtom` with its `(group_name, code)` pair, both appear in the output, each in the
list of the group of its own name; and when the `(group_name, code)` pairs of the
records are pairwise distinct, the concatenation of the lists of all groups is a
permutation of `singleAtom`. -/
theorem singleAtomGrouped_suppression_scoped (σ : Store) (s : List Atom)
    (h : readSingleAtom σ = some s) :
    ∃ gs, singleAtomGrouped σ = some gs ∧
      (∀ r₁ ∈ s, ∀ r₂ ∈ s, r₁.code = r₂.code → r₁.group_name ≠ r₂.group_name →
        firstWithKey s r₁ = some r₁ → firstWithKey s r₂ = some r₂ →
        (∃ g ∈ gs, g.group_name = r₁.group_name ∧ r₁ ∈ g.list) ∧
          (∃ g ∈ gs, g.group_name = r₂.group_name ∧ r₂ ∈ g.list)) ∧
      ((s.map (fun r => (r.group_name, r.code))).Nodup → (allRecords gs).Perm s) := by
  refine ⟨specGrouped s, singleAtomGrouped_eq h, ?_, allRecords_perm_of_nodup⟩
  intro r₁ h₁ r₂ h₂ _ _ hf₁ hf₂
  exact ⟨⟨specGroup s r₁.group_name,
      specGroup_mem_specGrouped (List.mem_map.mpr ⟨r₁, h₁, rfl⟩), rfl,
      mem_specList_of_firstWithKey hf₁⟩,
    ⟨specGroup s r₂.group_name,
      specGroup_mem_specGrouped (List.mem_map.mpr ⟨r₂, h₂, rfl⟩), rfl,
      mem_specList_of_firstWithKey hf₂⟩⟩

/-- Witness for C18, amended: a sequence in which code `'a'` occurs in two groups and all
pairs are distinct. -/
theorem singleAtomGrouped_suppression_scoped_witness :
    ∃ gs, singleAtomGrouped crossGroupStore = some gs ∧
      ((∃ g ∈ gs, g.group_name = duplicateFirst.group_name ∧ duplicateFirst ∈ g.list) ∧
        (∃ g ∈ gs, g.group_name = duplicateOther.group_name ∧ duplicateOther ∈ g.list)) ∧
      (allRecords gs).Perm crossGroupAtoms := by
  obtain ⟨gs, hgs, hboth, hperm⟩ :=
    singleAtomGrouped_suppression_scoped crossGroupStore crossGroupAtoms rfl
  exact ⟨gs, hgs,
    hboth duplicateFirst (by decide) duplicateOther (by decide) rfl (by decide)
      (by decide) (by decide),
    hperm (by decide)⟩

end AtomList
